import Mathlib

/-!
Verification of the `Model` class in `DNN_ImageClassifier.py`: a shallow
embedding of its matrix operations, forward/backward passes and training
loop over the reals, together with theorems settling the specification
claims about the network.  numpy arrays become a `Mat` structure carrying
explicit row/column counts and a total entry function; Python floats become
real numbers; runtime errors (KeyError, UnboundLocalError, ValueError)
become an explicit error type threaded through `Except`.
-/

noncomputable section

open Classical

/-- Runtime errors of the Python code that the embedding makes explicit. -/
inductive PyError where
  | unboundLocal : PyError
  | keyError : PyError
  | valueError : PyError
  deriving DecidableEq

/-- A 2-D numpy array: row count, column count, and a total entry function
(entries outside the stated dimensions are junk and never relied upon). -/
structure Mat where
  rows : ℕ
  cols : ℕ
  entry : ℕ → ℕ → ℝ

/-- Default matrix used as the junk value of out-of-range list lookups. -/
def dMat : Mat := ⟨0, 0, fun _ _ => 0⟩

/-- Matrix product, `np.dot(A, B)` (assumes `A.cols = B.rows` as numpy does). -/
def matMul (A B : Mat) : Mat :=
  ⟨A.rows, B.cols, fun i j => ∑ k ∈ Finset.range A.cols, A.entry i k * B.entry k j⟩

/-- `A + b` with a column vector `b` broadcast across the sample columns. -/
def matAddB (A b : Mat) : Mat :=
  ⟨A.rows, A.cols, fun i j => A.entry i j + b.entry i 0⟩

/-- Elementwise sum of two same-shaped arrays. -/
def matAddM (A B : Mat) : Mat :=
  ⟨A.rows, A.cols, fun i j => A.entry i j + B.entry i j⟩

/-- Elementwise difference of two same-shaped arrays. -/
def matSub (A B : Mat) : Mat :=
  ⟨A.rows, A.cols, fun i j => A.entry i j - B.entry i j⟩

/-- Elementwise (Hadamard) product, numpy `*` on same-shaped arrays. -/
def matHad (A B : Mat) : Mat :=
  ⟨A.rows, A.cols, fun i j => A.entry i j * B.entry i j⟩

/-- Elementwise quotient, `np.divide`. -/
def matDiv (A B : Mat) : Mat :=
  ⟨A.rows, A.cols, fun i j => A.entry i j / B.entry i j⟩

/-- Elementwise negation. -/
def matNeg (A : Mat) : Mat :=
  ⟨A.rows, A.cols, fun i j => -A.entry i j⟩

/-- Scalar multiple of an array. -/
def smulM (c : ℝ) (A : Mat) : Mat :=
  ⟨A.rows, A.cols, fun i j => c * A.entry i j⟩

/-- Scalar plus array, `A + c`. -/
def addSc (A : Mat) (c : ℝ) : Mat :=
  ⟨A.rows, A.cols, fun i j => A.entry i j + c⟩

/-- Scalar minus array, `c - A` (as in `1 - y`). -/
def subLeft (c : ℝ) (A : Mat) : Mat :=
  ⟨A.rows, A.cols, fun i j => c - A.entry i j⟩

/-- Elementwise natural logarithm, `np.log`. -/
def logM (A : Mat) : Mat :=
  ⟨A.rows, A.cols, fun i j => Real.log (A.entry i j)⟩

/-- Matrix transpose, `A.T`. -/
def matT (A : Mat) : Mat :=
  ⟨A.cols, A.rows, fun i j => A.entry j i⟩

/-- Row sums, `np.sum(A, axis=1, keepdims=True)`. -/
def rowSum (A : Mat) : Mat :=
  ⟨A.rows, 1, fun i _ => ∑ j ∈ Finset.range A.cols, A.entry i j⟩

/-- The logistic function `scipy.special.expit`. -/
def sigmoid (z : ℝ) : ℝ := 1 / (1 + Real.exp (-z))

/-- `Model.dsigmoid`: derivative of the sigmoid, `sig * (1 - sig)`. -/
def dsigmoid (z : ℝ) : ℝ := sigmoid z * (1 - sigmoid z)

/-- Elementwise sigmoid of an array. -/
def sigmoidM (A : Mat) : Mat :=
  ⟨A.rows, A.cols, fun i j => sigmoid (A.entry i j)⟩

/-- Elementwise sigmoid derivative of an array. -/
def dsigmoidM (A : Mat) : Mat :=
  ⟨A.rows, A.cols, fun i j => dsigmoid (A.entry i j)⟩

/-- `Model.relu`: `np.maximum(0, Z)` elementwise. -/
def reluM (A : Mat) : Mat :=
  ⟨A.rows, A.cols, fun i j => max 0 (A.entry i j)⟩

/-- `Model.drelu`: `np.heaviside(Z, 0)` elementwise (value 0 at exactly 0). -/
def dreluM (A : Mat) : Mat :=
  ⟨A.rows, A.cols, fun i j => if 0 < A.entry i j then 1 else 0⟩

/-- The additive fudge factor `epsilon = 1e-5` used throughout the source. -/
def epsc : ℝ := 1 / 100000

/-- One layer's parameters: the pair `(W i, b i)` of the parameter dictionary. -/
structure Layer where
  W : Mat
  b : Mat

/-- Default layer used as the junk value of out-of-range list lookups. -/
def dLayer : Layer := ⟨dMat, dMat⟩

/-- One record of the activation cache: the layer's activation `A` and (for
all but the input record) its pre-activation `Z`. -/
structure CacheRec where
  A : Mat
  Z : Option Mat

/-- Default cache record used as the junk value of out-of-range lookups. -/
def dRec : CacheRec := ⟨dMat, none⟩

/-- Default gradient pair used as the junk value of out-of-range lookups. -/
def dGrad : Mat × Mat := (dMat, dMat)

/-- The state of a `Model` instance.  The string-keyed dictionary
`parameters` (keys `W1..WL, b1..bL` as created by `initialize_parameters`)
is modelled as a list of layers, index `k` holding `(W(k+1), b(k+1))`, so
that `len(parameters)//2` is the list's length. -/
structure ModelState where
  learning_rate : ℝ
  num_iters : ℤ
  layers : List ℕ
  params : List Layer
  cache : List CacheRec
  growth_rate : Option ℝ
  J_hist : List ℝ

/-- `Model.initialize_parameters`: for `i` in `1..len(layers)-1`,
`W i = randn(layers[i], layers[i-1]) * 0.1` and `b i = zeros((layers[i], 1))`;
`randn` abstracts numpy's random source (argument order: layer, row, col). -/
def initParameters (layers : List ℕ) (randn : ℕ → ℕ → ℕ → ℝ) : List Layer :=
  (List.range (layers.length - 1)).map fun k =>
    ⟨⟨layers.getD (k + 1) 0, layers.getD k 0, fun r c => randn (k + 1) r c * (1 / 10)⟩,
     ⟨layers.getD (k + 1) 0, 1, fun _ _ => 0⟩⟩

/-- The hidden-layer loop of `Model.feed_forward` (`for i in range(1, L)`):
threads the activation through `relu(W·A + b)` for each layer of the given
list and collects the cache records appended along the way. -/
def hiddenForward : List Layer → Mat → Mat × List CacheRec
  | [], A => (A, [])
  | l :: rest, A =>
    let Z := matAddB (matMul l.W A) l.b
    let A2 := reluM Z
    let res := hiddenForward rest A2
    (res.1, ⟨A2, some Z⟩ :: res.2)

/-- `Model.feed_forward`: reseeds the cache (appending `{'A': X}` only when
the cache is empty, otherwise `del cache[1:]` keeps the existing record 0),
runs the hidden layers with relu, the output layer with sigmoid, and returns
the new state together with the output activation.  With an empty parameter
dictionary the lookup `parameters['W0']` raises a KeyError. -/
def feed_forward (m : ModelState) (X : Mat) : Except PyError (ModelState × Mat) :=
  let cache0 := if m.cache.isEmpty then [⟨X, none⟩] else m.cache.take 1
  match m.params.getLast? with
  | none => .error .keyError
  | some lout =>
    let res := hiddenForward m.params.dropLast X
    let Z := matAddB (matMul lout.W res.1) lout.b
    let Aout := sigmoidM Z
    .ok ({ m with cache := cache0 ++ res.2 ++ [⟨Aout, some Z⟩] }, Aout)

/-- `Model.computeCost`: binary cross-entropy
`-(y·log(p+eps).T + (1-y)·log(1-p+eps).T)` summed along axis 1, scaled by
`1/m` with `m = y.shape[1]`, and squeezed to a scalar. -/
def computeCost (y predictions : Mat) : ℝ :=
  let mm := y.cols
  let err := matNeg (matAddM
    (matMul y (matT (logM (addSc predictions epsc))))
    (matMul (subLeft 1 y) (matT (logM (addSc (subLeft 1 predictions) epsc)))))
  (1 / (mm : ℝ)) * ∑ j ∈ Finset.range err.cols, err.entry 0 j

/-- The entrywise form of the output-layer pre-activation gradient of
`Model.back_propagate` (lines `dA = -y/(A+eps) + (1-y)/(1-A+eps)` and
`dZ = dA * dsigmoid(Z)`), at one cached activation entry `a`, cached
pre-activation entry `z` and label entry `yv`. -/
def outputDZ (a z yv : ℝ) : ℝ :=
  (-(yv / (a + epsc)) + (1 - yv) / (1 - a + epsc)) * dsigmoid z

/-- The hidden-layer loop of `Model.back_propagate`
(`for i in reversed(range(1, L))`): called with the current layer count and
the back-propagated `da_prev`, produces the gradient pairs for layers
`1..k`, listed so that index `j` holds layer `j+1`'s `(dW, db)`. -/
def backHidden (m : ModelState) (mm : ℕ) : ℕ → Mat → List (Mat × Mat)
  | 0, _ => []
  | k + 1, daPrev =>
    let dZ := matHad daPrev (dreluM ((m.cache.getD (k + 1) dRec).Z.getD dMat))
    let dW := smulM (1 / (mm : ℝ)) (matMul dZ (matT ((m.cache.getD k dRec).A)))
    let db := smulM (1 / (mm : ℝ)) (rowSum dZ)
    backHidden m mm k (matMul (matT (m.params.getD k dLayer).W) dZ) ++ [(dW, db)]

/-- `Model.back_propagate`: output-layer gradients from the last two cache
records (`cache[-1]`, `cache[-2]`), then the hidden-layer loop.  The result
list holds layer `k+1`'s `(dW, db)` at index `k` (the Python dict keyed by
layer index).  The unused argument `X` matches the Python signature. -/
def back_propagate (m : ModelState) (X y : Mat) : List (Mat × Mat) :=
  let mm := y.cols
  let L := m.params.length
  let cL := m.cache.getD (m.cache.length - 1) dRec
  let cL2 := m.cache.getD (m.cache.length - 2) dRec
  let dA := matAddM (matNeg (matDiv y (addSc cL.A epsc)))
                    (matDiv (subLeft 1 y) (addSc (subLeft 1 cL.A) epsc))
  let dZ := matHad dA (dsigmoidM (cL.Z.getD dMat))
  let dW := smulM (1 / (mm : ℝ)) (matMul dZ (matT cL2.A))
  let db := smulM (1 / (mm : ℝ)) (rowSum dZ)
  let daPrev := matMul (matT (m.params.getD (L - 1) dLayer).W) dZ
  backHidden m mm (L - 1) daPrev ++ [(dW, db)]

/-- The in-place parameter update of `Model.train`
(`for j in range(1, len(self.layers))`):
`W j -= learning_rate * dW j`, `b j -= learning_rate * db j`.  The list
lookups match the dictionary lookups under the initialisation invariant
`params.length = layers.length - 1`. -/
def updateParams (m : ModelState) (grads : List (Mat × Mat)) : List Layer :=
  (List.range (m.layers.length - 1)).map fun k =>
    ⟨matSub (m.params.getD k dLayer).W (smulM m.learning_rate (grads.getD k dGrad).1),
     matSub (m.params.getD k dLayer).b (smulM m.learning_rate (grads.getD k dGrad).2)⟩

/-- Negative indexing `J[-k]` on the cost history: entry `k-1` of the
reversed list (junk 0 when out of range; only read on long-enough lists). -/
def idxFromEnd (J : List ℝ) (k : ℕ) : ℝ := J.reverse.getD (k - 1) 0

/-- The growth rate of line 159:
`(J_hist[-1] - J_hist[-2]) / (J_hist[-2] - J_hist[-3] + epsilon)`. -/
def growthRate (J : List ℝ) : ℝ :=
  (idxFromEnd J 1 - idxFromEnd J 2) / (idxFromEnd J 2 - idxFromEnd J 3 + epsc)

/-- The early-stopping condition of lines 157-163 as a predicate on the
post-append cost history: the growth rate is computed (and can break the
loop) only when more than 3 costs have been recorded. -/
def stopTriggered (J : List ℝ) : Prop := 3 < J.length ∧ growthRate J < 1 / 4

/-- One iteration of the `Model.train` loop body, in source order: forward
pass, cost, gradients, parameter update, cost appended to the history, and
the growth rate stored when more than 3 costs are recorded. -/
def trainStep (m : ModelState) (X y : Mat) : Except PyError (ModelState × ℝ) :=
  match feed_forward m X with
  | .error e => .error e
  | .ok (m1, predictions) =>
    let cost := computeCost y predictions
    let grads := back_propagate m1 X y
    let params2 := updateParams m1 grads
    let J2 := m1.J_hist ++ [cost]
    let g2 := if 3 < J2.length then some (growthRate J2) else m1.growth_rate
    .ok ({ m1 with params := params2, J_hist := J2, growth_rate := g2 }, cost)

/-- The `for i in range(num_iters)` loop of `Model.train`, counting the
remaining iterations and threading the last computed cost (`none` before
the first iteration, mirroring the unbound Python local `cost`).  The
nested conditionals mirror lines 157-163: the growth-rate comparison is
evaluated only under `len(J_hist) > 3`, and `break` ends the loop. -/
def trainLoop (X y : Mat) : ℕ → ModelState → Option ℝ → Except PyError (ModelState × Option ℝ)
  | 0, m, last => .ok (m, last)
  | n + 1, m, last =>
    match trainStep m X y with
    | .error e => .error e
    | .ok (m2, cost) =>
      if 3 < m2.J_hist.length then
        if growthRate m2.J_hist < 1 / 4 then .ok (m2, some cost)
        else trainLoop X y n m2 (some cost)
      else trainLoop X y n m2 (some cost)

/-- `Model.train`: runs the iteration loop, then prints the final cost —
which raises an UnboundLocalError when no iteration ever assigned `cost` —
and finally flushes the cache (`self.cache.clear()`). -/
def train (m : ModelState) (X y : Mat) : Except PyError (ModelState × ℝ) :=
  match trainLoop X y m.num_iters.toNat m none with
  | .error e => .error e
  | .ok (m2, some cost) => .ok ({ m2 with cache := [] }, cost)
  | .ok (_, none) => .error .unboundLocal

/-- The `X.reshape(64*64*3, 1)` step of `Model.predict` (row-major flatten;
numpy raises a ValueError when the element count differs). -/
def reshapeCol (X : Mat) : Except PyError Mat :=
  if X.rows * X.cols = 64 * 64 * 3 then
    .ok ⟨64 * 64 * 3, 1, fun i _ => X.entry (i / X.cols) (i % X.cols)⟩
  else .error .valueError

/-- `Model.predict`: when `prepare` is true, flattens and rescales the input
and feeds it forward, reporting the squeezed scalar prediction.  When
`prepare` is false the local `X_flatten` was never assigned, so evaluating
the argument of `feed_forward` raises an UnboundLocalError. -/
def predict (m : ModelState) (X : Mat) (prepare : Bool) : Except PyError (ModelState × ℝ) :=
  if prepare then
    match reshapeCol X with
    | .error e => .error e
    | .ok Xf =>
      let Xs : Mat := ⟨Xf.rows, Xf.cols, fun i j => Xf.entry i j / 255⟩
      match feed_forward m Xs with
      | .error e => .error e
      | .ok (m2, A) => .ok (m2, A.entry 0 0)
  else .error .unboundLocal

/-- The layer activations of the forward recurrence, indexed by layer:
`Aat 0 = X` and `Aat (k+1) = relu(W(k+1) · Aat k + b(k+1))` (the relu form
applies to hidden layers; the output layer's activation is
`sigmoidM (Zat ps X ps.length)` instead). -/
def Aat (ps : List Layer) (X : Mat) : ℕ → Mat
  | 0 => X
  | k + 1 => reluM (matAddB (matMul (ps.getD k dLayer).W (Aat ps X k)) (ps.getD k dLayer).b)

/-- The layer pre-activations of the forward recurrence, indexed by layer
(junk at index 0, which has no pre-activation). -/
def Zat (ps : List Layer) (X : Mat) : ℕ → Mat
  | 0 => dMat
  | k + 1 => matAddB (matMul (ps.getD k dLayer).W (Aat ps X k)) (ps.getD k dLayer).b

/-- The parameter list realises the layer specification: one weight/bias
pair per non-input layer, `W i` of shape `(layers[i], layers[i-1])` and
`b i` of shape `(layers[i], 1)`. -/
def paramsMatch (layers : List ℕ) (ps : List Layer) : Prop :=
  ps.length = layers.length - 1 ∧
  ∀ k < ps.length,
    (ps.getD k dLayer).W.rows = layers.getD (k + 1) 0 ∧
    (ps.getD k dLayer).W.cols = layers.getD k 0 ∧
    (ps.getD k dLayer).b.rows = layers.getD (k + 1) 0 ∧
    (ps.getD k dLayer).b.cols = 1

/-- Each gradient pair has exactly the shape of the parameter pair it
updates, so the elementwise update involves no broadcasting. -/
def gradsMatch (ps : List Layer) (gs : List (Mat × Mat)) : Prop :=
  gs.length = ps.length ∧
  ∀ k < ps.length,
    (gs.getD k dGrad).1.rows = (ps.getD k dLayer).W.rows ∧
    (gs.getD k dGrad).1.cols = (ps.getD k dLayer).W.cols ∧
    (gs.getD k dGrad).2.rows = (ps.getD k dLayer).b.rows ∧
    (gs.getD k dGrad).2.cols = (ps.getD k dLayer).b.cols

/-- Concrete 1-feature input used to exercise the model on a single sample. -/
def wX : Mat := ⟨1, 1, fun _ _ => 1⟩

/-- Concrete 1-sample label vector. -/
def wy : Mat := ⟨1, 1, fun _ _ => 0⟩

/-- Concrete 1x1 zero weight matrix. -/
def wW : Mat := ⟨1, 1, fun _ _ => 0⟩

/-- Concrete 1x1 zero bias vector. -/
def wb : Mat := ⟨1, 1, fun _ _ => 0⟩

/-- Concrete model: layer spec `[1, 1]`, one parameter pair, fresh caches. -/
def wM : ModelState := ⟨1 / 2, 1, [1, 1], [⟨wW, wb⟩], [], none, []⟩

/-- The same model with a non-positive iteration budget. -/
def w0M : ModelState := { wM with num_iters := 0 }

/-- Output-layer pre-activation of the concrete model on `wX`. -/
def wZ : Mat := matAddB (matMul wW wX) wb

/-- Output activation of the concrete model on `wX`. -/
def wP : Mat := sigmoidM wZ

/-- State of the concrete model right after one forward pass on `wX`. -/
def wM1 : ModelState := { wM with cache := [⟨wX, none⟩, ⟨wP, some wZ⟩] }

/-- Cost of the concrete model's first prediction against `wy`. -/
def wCost : ℝ := computeCost wy wP

/-- Gradients of the concrete model after the first forward pass. -/
def wGrads : List (Mat × Mat) := back_propagate wM1 wX wy

/-- State of the concrete model after one full training iteration. -/
def wM2 : ModelState := { wM1 with params := updateParams wM1 wGrads, J_hist := [wCost] }

/-- State of the concrete model returned by `train` (cache flushed). -/
def wTrain : ModelState := { wM2 with cache := [] }

/-- Input of a hypothetical first forward call (for the stale-cache run). -/
def cxX1 : Mat := ⟨1, 1, fun _ _ => 0⟩

/-- Input of the second forward call, different from the first. -/
def cxX2 : Mat := ⟨1, 1, fun _ _ => 1⟩

/-- A model whose cache still holds the record of a previous forward pass
over `cxX1` (as it does between iterations or between calls). -/
def cxM : ModelState := ⟨1 / 2, 1, [1, 1], [⟨wW, wb⟩], [⟨cxX1, none⟩], none, []⟩

/-- First cache record's activation of a forward-pass result (junk on
error); used to observe what `feed_forward` leaves in record 0. -/
def cacheHeadA (e : Except PyError (ModelState × Mat)) : Mat :=
  match e with
  | .ok r => (r.1.cache.getD 0 dRec).A
  | .error _ => dMat

/-- A pre-activation whose sigmoid is exactly `epsc`, i.e. an output
activation saturated to within `epsc` of 0. -/
def zSat : ℝ := Real.log (epsc / (1 - epsc))

/-! ## List indexing helpers -/

/-- `getD` of a mapped range at an in-range index. -/
theorem getD_map_range {α : Type _} (f : ℕ → α) (n k : ℕ) (d : α) (hk : k < n) :
    ((List.range n).map f).getD k d = f k := by
  rw [List.getD_eq_getElem?_getD, List.getElem?_map]
  simp [List.getElem?_range, hk]

/-- `getD` of `dropLast` agrees with the original list below the last index. -/
theorem getD_dropLastL {α : Type _} (l : List α) (k : ℕ) (d : α) (hk : k < l.length - 1) :
    l.dropLast.getD k d = l.getD k d := by
  rw [List.getD_eq_getElem?_getD, List.getD_eq_getElem?_getD,
    List.getElem?_eq_getElem (l := l.dropLast) (by simpa using hk),
    List.getElem?_eq_getElem (by omega)]
  simp [List.getElem_dropLast]

/-- `getD` of an append, index inside the left part. -/
theorem getD_append_leftL {α : Type _} (l l' : List α) (k : ℕ) (d : α) (hk : k < l.length) :
    (l ++ l').getD k d = l.getD k d := by
  rw [List.getD_eq_getElem?_getD, List.getD_eq_getElem?_getD, List.getElem?_append_left hk]

/-- `getD` of an append, index inside the right part. -/
theorem getD_append_rightL {α : Type _} (l l' : List α) (k : ℕ) (d : α) (hk : l.length ≤ k) :
    (l ++ l').getD k d = l'.getD (k - l.length) d := by
  rw [List.getD_eq_getElem?_getD, List.getD_eq_getElem?_getD, List.getElem?_append_right hk]

/-! ## Forward recurrence versus the feed-forward loop -/

/-- Shifting the forward recurrence across the head layer. -/
theorem Aat_cons (l : Layer) (rest : List Layer) (X : Mat) (k : ℕ) :
    Aat (l :: rest) X (k + 1) = Aat rest (reluM (matAddB (matMul l.W X) l.b)) k := by
  induction k with
  | zero => simp [Aat]
  | succ k ih =>
    conv_lhs => rw [Aat]
    conv_rhs => rw [Aat]
    rw [ih, List.getD_cons_succ]

/-- Shifting the pre-activation recurrence across the head layer. -/
theorem Zat_cons (l : Layer) (rest : List Layer) (X : Mat) (k : ℕ) :
    Zat (l :: rest) X (k + 2) = Zat rest (reluM (matAddB (matMul l.W X) l.b)) (k + 1) := by
  simp only [Zat, List.getD_cons_succ, Aat_cons]

/-- The first pre-activation is the head layer's affine map of the input. -/
theorem Zat_one (l : Layer) (rest : List Layer) (X : Mat) :
    Zat (l :: rest) X 1 = matAddB (matMul l.W X) l.b := by
  simp [Zat, Aat]

/-- The hidden-layer loop computes exactly the indexed forward recurrence. -/
theorem hiddenForward_fst (ps : List Layer) (X : Mat) :
    (hiddenForward ps X).1 = Aat ps X ps.length := by
  induction ps generalizing X with
  | nil => rfl
  | cons l rest ih => simp only [hiddenForward, ih, List.length_cons, Aat_cons]

/-- The hidden-layer loop appends one cache record per layer. -/
theorem hiddenForward_len (ps : List Layer) (X : Mat) :
    (hiddenForward ps X).2.length = ps.length := by
  induction ps generalizing X with
  | nil => rfl
  | cons l rest ih => simp [hiddenForward, ih]

/-- Each record appended by the hidden-layer loop holds that layer's
activation/pre-activation pair of the indexed recurrence. -/
theorem hiddenForward_rec (ps : List Layer) (X : Mat) (k : ℕ) (hk : k < ps.length) :
    (hiddenForward ps X).2.getD k dRec
      = ⟨reluM (Zat ps X (k + 1)), some (Zat ps X (k + 1))⟩ := by
  induction ps generalizing X k with
  | nil => simp at hk
  | cons l rest ih =>
    cases k with
    | zero => simp [hiddenForward, Zat_one, Aat]
    | succ k =>
      have hk' : k < rest.length := by simpa using hk
      simp only [hiddenForward, List.getD_cons_succ, ih _ k hk', Zat_cons]

/-- The forward recurrence only reads the first `k` layers. -/
theorem Aat_congr (ps₁ ps₂ : List Layer) (X : Mat) (k : ℕ)
    (h : ∀ j < k, ps₁.getD j dLayer = ps₂.getD j dLayer) :
    Aat ps₁ X k = Aat ps₂ X k := by
  induction k with
  | zero => rfl
  | succ k ih =>
    have hk := h k (by omega)
    simp only [Aat, ih (fun j hj => h j (by omega)), hk]

/-- The pre-activation recurrence only reads the first `k+1` layers. -/
theorem Zat_congr (ps₁ ps₂ : List Layer) (X : Mat) (k : ℕ)
    (h : ∀ j < k + 1, ps₁.getD j dLayer = ps₂.getD j dLayer) :
    Zat ps₁ X (k + 1) = Zat ps₂ X (k + 1) := by
  simp only [Zat, h k (by omega), Aat_congr ps₁ ps₂ X k (fun j hj => h j (by omega))]

/-- Activations keep the input's sample count (column count). -/
theorem Aat_cols (ps : List Layer) (X : Mat) (k : ℕ) : (Aat ps X k).cols = X.cols := by
  induction k with
  | zero => rfl
  | succ k ih => simp [Aat, reluM, matAddB, matMul, ih]

/-- Pre-activations keep the input's sample count. -/
theorem Zat_cols (ps : List Layer) (X : Mat) (k : ℕ) : (Zat ps X (k + 1)).cols = X.cols := by
  simp [Zat, matAddB, matMul, Aat_cols]

/-- A layer's activation has its weight matrix's row count. -/
theorem Aat_rows (ps : List Layer) (X : Mat) (k : ℕ) :
    (Aat ps X (k + 1)).rows = (ps.getD k dLayer).W.rows := by
  simp [Aat, reluM, matAddB, matMul]

/-- A layer's pre-activation has its weight matrix's row count. -/
theorem Zat_rows (ps : List Layer) (X : Mat) (k : ℕ) :
    (Zat ps X (k + 1)).rows = (ps.getD k dLayer).W.rows := by
  simp [Zat, matAddB, matMul]

/-! ## Characterisation of one forward pass -/

/-- With a non-empty parameter list, `feed_forward` succeeds and its result
is fully described: the output is the sigmoid of the last layer's
pre-activation of the indexed recurrence, and the cache is the kept (or
fresh) record 0 followed by the hidden records and the output record. -/
theorem ff_spec (m : ModelState) (X : Mat) (hne : m.params ≠ []) :
    feed_forward m X = .ok
      ({ m with cache :=
          (if m.cache.isEmpty then [⟨X, none⟩] else m.cache.take 1)
          ++ (hiddenForward m.params.dropLast X).2
          ++ [⟨sigmoidM (Zat m.params X m.params.length),
               some (Zat m.params X m.params.length)⟩] },
        sigmoidM (Zat m.params X m.params.length)) := by
  rcases List.eq_nil_or_concat m.params with h | ⟨init, lst, h⟩
  · exact absurd h hne
  have hps : m.params = init ++ [lst] := by simpa using h
  have hlen : m.params.length = init.length + 1 := by rw [hps]; simp
  have hgl : m.params.getLast? = some lst := by rw [hps]; exact List.getLast?_concat init
  have hdl : m.params.dropLast = init := by rw [hps]; exact List.dropLast_concat
  have hget : m.params.getD init.length dLayer = lst := by
    rw [hps, getD_append_rightL init [lst] init.length dLayer le_rfl]
    simp
  have hAat : Aat m.params X init.length = Aat init X init.length := by
    apply Aat_congr
    intro j hj
    rw [hps, getD_append_leftL init [lst] j dLayer hj]
  have hZ : Zat m.params X m.params.length
      = matAddB (matMul lst.W (hiddenForward init X).1) lst.b := by
    rw [hlen]
    show matAddB (matMul (m.params.getD init.length dLayer).W (Aat m.params X init.length))
        (m.params.getD init.length dLayer).b = _
    rw [hget, hAat, hiddenForward_fst]
  simp only [feed_forward, hgl, hdl, hZ]

/-- The cache record count after a forward pass is one per layer, input
through output. -/
theorem ff_cache_len (m : ModelState) (X : Mat) (m2 : ModelState) (A : Mat)
    (hff : feed_forward m X = .ok (m2, A)) :
    m2.cache.length = m.params.length + 1 := by
  have hne : m.params ≠ [] := by
    intro h
    rw [feed_forward] at hff
    rcases hgl : m.params.getLast? with _ | l
    · rw [hgl] at hff; exact absurd hff (by simp)
    · rw [h] at hgl; simp at hgl
  have := ff_spec m X hne
  rw [this] at hff
  have h2 : m2 = { m with cache :=
      (if m.cache.isEmpty then [⟨X, none⟩] else m.cache.take 1)
      ++ (hiddenForward m.params.dropLast X).2
      ++ [⟨sigmoidM (Zat m.params X m.params.length),
           some (Zat m.params X m.params.length)⟩] } := by
    cases hff; rfl
  rw [h2]
  have hhead : (if m.cache.isEmpty then [(⟨X, none⟩ : CacheRec)] else m.cache.take 1).length = 1 := by
    rcases hc : m.cache with _ | ⟨r, rest⟩
    · simp
    · simp [List.length_take]
  have hL : m.params.dropLast.length = m.params.length - 1 := List.length_dropLast m.params
  have hpos : 1 ≤ m.params.length := List.length_pos.mpr hne
  simp only [List.length_append, hhead, hiddenForward_len, hL, List.length_singleton]
  omega

/-- A successful forward pass means the parameter dictionary is non-empty. -/
theorem ff_ok_ne (m : ModelState) (X : Mat) (r : ModelState × Mat)
    (hff : feed_forward m X = .ok r) : m.params ≠ [] := by
  intro h
  rw [feed_forward, h] at hff
  simp at hff

/-- Splitting a successful forward pass into its cache and output parts. -/
theorem ff_cache_eq (m : ModelState) (X : Mat) (m2 : ModelState) (A : Mat)
    (hff : feed_forward m X = .ok (m2, A)) :
    m2.cache = (if m.cache.isEmpty then [⟨X, none⟩] else m.cache.take 1)
      ++ (hiddenForward m.params.dropLast X).2
      ++ [⟨sigmoidM (Zat m.params X m.params.length),
           some (Zat m.params X m.params.length)⟩]
    ∧ A = sigmoidM (Zat m.params X m.params.length) := by
  have hne := ff_ok_ne m X (m2, A) hff
  rw [ff_spec m X hne] at hff
  simp only [Except.ok.injEq, Prod.mk.injEq] at hff
  obtain ⟨h1, h2⟩ := hff
  rw [← h1, ← h2]
  exact ⟨rfl, rfl⟩

/-- A forward pass leaves every state field except the cache untouched. -/
theorem ff_state_eq (m : ModelState) (X : Mat) (m2 : ModelState) (A : Mat)
    (hff : feed_forward m X = .ok (m2, A)) :
    m2.learning_rate = m.learning_rate ∧ m2.num_iters = m.num_iters ∧
    m2.layers = m.layers ∧ m2.params = m.params ∧
    m2.growth_rate = m.growth_rate ∧ m2.J_hist = m.J_hist := by
  have hne := ff_ok_ne m X (m2, A) hff
  rw [ff_spec m X hne] at hff
  simp only [Except.ok.injEq, Prod.mk.injEq] at hff
  obtain ⟨h1, h2⟩ := hff
  rw [← h1]
  exact ⟨rfl, rfl, rfl, rfl, rfl, rfl⟩

/-- Record 0 after a forward pass: the input when the cache was empty,
otherwise whatever record 0 held before the call. -/
theorem ff_cache_head (m : ModelState) (X : Mat) (m2 : ModelState) (A : Mat)
    (hff : feed_forward m X = .ok (m2, A)) :
    m2.cache.getD 0 dRec
      = (if m.cache.isEmpty then ⟨X, none⟩ else m.cache.getD 0 dRec) := by
  obtain ⟨hc, -⟩ := ff_cache_eq m X m2 A hff
  rw [hc]
  rcases hcase : m.cache with _ | ⟨r, rest⟩
  · simp
  · simp [List.isEmpty_cons, List.take_succ_cons, List.take_zero, List.getD_cons_zero,
      List.cons_append]

/-- Records 1 through L after a forward pass hold this call's layer values
of the indexed forward recurrence: relu activations for the hidden layers,
a sigmoid activation for the output layer, each with its pre-activation. -/
theorem ff_cache_get (m : ModelState) (X : Mat) (m2 : ModelState) (A : Mat)
    (hff : feed_forward m X = .ok (m2, A)) (k : ℕ)
    (hk1 : 1 ≤ k) (hkL : k ≤ m.params.length) :
    m2.cache.getD k dRec =
      (if k = m.params.length
       then ⟨sigmoidM (Zat m.params X k), some (Zat m.params X k)⟩
       else ⟨reluM (Zat m.params X k), some (Zat m.params X k)⟩) := by
  obtain ⟨hc, -⟩ := ff_cache_eq m X m2 A hff
  have hne := ff_ok_ne m X (m2, A) hff
  have hhead : (if m.cache.isEmpty then [(⟨X, none⟩ : CacheRec)] else m.cache.take 1).length
      = 1 := by
    rcases hcase : m.cache with _ | ⟨r, rest⟩
    · simp
    · simp [List.length_take]
  have hrecs : (hiddenForward m.params.dropLast X).2.length = m.params.length - 1 := by
    rw [hiddenForward_len, List.length_dropLast]
  have hpos : 1 ≤ m.params.length := List.length_pos.mpr hne
  rw [hc]
  by_cases hkeq : k = m.params.length
  · subst hkeq
    rw [if_pos rfl]
    rw [getD_append_rightL _ _ _ dRec (le_of_eq (by rw [List.length_append, hhead, hrecs]; omega))]
    have h0 : m.params.length
        - ((if m.cache.isEmpty then [(⟨X, none⟩ : CacheRec)] else m.cache.take 1)
           ++ (hiddenForward m.params.dropLast X).2).length = 0 := by
      rw [List.length_append, hhead, hrecs]; omega
    rw [h0]
    rfl
  · have hklt : k < m.params.length := by omega
    rw [if_neg hkeq]
    rw [getD_append_leftL _ _ k dRec (by rw [List.length_append, hhead, hrecs]; omega)]
    rw [getD_append_rightL _ _ k dRec (by rw [hhead]; omega)]
    rw [hhead]
    have hk2 : k - 1 < m.params.dropLast.length := by rw [List.length_dropLast]; omega
    rw [hiddenForward_rec _ _ _ hk2]
    have hk3 : k - 1 + 1 = k := by omega
    rw [hk3]
    have hz : Zat m.params.dropLast X k = Zat m.params X k := by
      obtain ⟨j, rfl⟩ : ∃ j, k = j + 1 := ⟨k - 1, by omega⟩
      apply Zat_congr
      intro i hi
      exact getD_dropLastL _ _ _ (by omega)
    rw [hz]

/-! ## Sigmoid range and cost identities -/

/-- The sigmoid is strictly positive. -/
theorem sigmoid_pos (z : ℝ) : 0 < sigmoid z := by
  unfold sigmoid
  positivity

/-- The sigmoid is strictly below one. -/
theorem sigmoid_lt_one (z : ℝ) : sigmoid z < 1 := by
  unfold sigmoid
  rw [div_lt_one (by positivity)]
  have := Real.exp_pos (-z)
  linarith

/-- The matrix-level cost computation, written as the per-sample scalar sum
(for a prediction row vector). -/
theorem computeCost_eq (y p : Mat) (hp : p.rows = 1) :
    computeCost y p = -((1 / (y.cols : ℝ)) * ∑ j ∈ Finset.range y.cols,
      (y.entry 0 j * Real.log (p.entry 0 j + epsc)
        + (1 - y.entry 0 j) * Real.log (1 - p.entry 0 j + epsc))) := by
  have h1 : computeCost y p = (1 / (y.cols : ℝ)) * ∑ j ∈ Finset.range p.rows,
      -((∑ k ∈ Finset.range y.cols, y.entry 0 k * Real.log (p.entry j k + epsc))
        + ∑ k ∈ Finset.range y.cols,
            (1 - y.entry 0 k) * Real.log (1 - p.entry j k + epsc)) := rfl
  rw [h1, hp, Finset.sum_range_one, ← Finset.sum_add_distrib]
  ring

/-! ## Training-loop characterisations -/

/-- One loop iteration, given the forward pass's result: the appended cost
is the cost of this iteration's predictions, the parameters are updated
from this iteration's gradients, and the growth rate is stored once more
than 3 costs are recorded. -/
theorem tstep_spec (m : ModelState) (X y : Mat) (m1 : ModelState) (P : Mat)
    (hff : feed_forward m X = .ok (m1, P)) :
    trainStep m X y = .ok
      ({ m1 with
          params := updateParams m1 (back_propagate m1 X y),
          J_hist := m1.J_hist ++ [computeCost y P],
          growth_rate := if 3 < (m1.J_hist ++ [computeCost y P]).length
            then some (growthRate (m1.J_hist ++ [computeCost y P]))
            else m1.growth_rate },
        computeCost y P) := by
  rw [trainStep, hff]

/-- Whatever `train` returns on success has an empty activation cache. -/
theorem train_cache (m : ModelState) (X y : Mat) (r : ModelState × ℝ)
    (h : train m X y = .ok r) : r.1.cache = [] := by
  rw [train] at h
  rcases hl : trainLoop X y m.num_iters.toNat m none with e | ⟨m2, oc⟩
  · rw [hl] at h; simp at h
  · rw [hl] at h
    rcases oc with _ | c
    · simp at h
    · simp only [Except.ok.injEq] at h
      rw [← h]

/-! ## Claim C4: the cost formula -/

/-- C4: for every label row vector `y` and prediction row vector `p` of the
same length `m ≥ 1`, `computeCost y p` returns the single scalar
`-(1/m) · Σ_j [y_j · log(p_j + eps) + (1 - y_j) · log(1 - p_j + eps)]`
with `eps = 1e-5`. -/
theorem C4_computeCost_formula (y p : Mat)
    (hy : y.rows = 1) (hp : p.rows = 1) (hc : p.cols = y.cols) (hm : 1 ≤ y.cols) :
    computeCost y p = -((1 / (y.cols : ℝ)) * ∑ j ∈ Finset.range y.cols,
      (y.entry 0 j * Real.log (p.entry 0 j + epsc)
        + (1 - y.entry 0 j) * Real.log (1 - p.entry 0 j + epsc))) :=
  computeCost_eq y p hp

/-- Witness for C4 at the concrete one-sample label/prediction pair. -/
theorem C4_witness :
    wy.rows = 1 ∧ 1 ≤ wy.cols ∧
    computeCost wy wy = -((1 / (wy.cols : ℝ)) * ∑ j ∈ Finset.range wy.cols,
      (wy.entry 0 j * Real.log (wy.entry 0 j + epsc)
        + (1 - wy.entry 0 j) * Real.log (1 - wy.entry 0 j + epsc))) :=
  ⟨rfl, Nat.le_refl 1, C4_computeCost_formula wy wy rfl rfl rfl (Nat.le_refl 1)⟩

/-! ## Claim C6: predict without preprocessing -/

/-- C6: `predict` with preprocessing disabled never reaches the forward
pass: the local `X_flatten` is only assigned inside the preprocessing
branch, so the call fails with an unbound-local error for every model
and every input, instead of predicting on `X` as given. -/
theorem C6_predict_no_preprocess_error (m : ModelState) (X : Mat) :
    predict m X false = .error .unboundLocal := rfl

/-! ## Claim C10: non-positive iteration budget -/

/-- C10: with `num_iters ≤ 0` the training loop body never runs (the loop
returns the starting state with no cost ever assigned) and `train` then
fails with an unbound-local error when reporting the final cost. -/
theorem C10_nonpositive_iters_unbound (m : ModelState) (X y : Mat)
    (h : m.num_iters ≤ 0) :
    train m X y = .error .unboundLocal ∧
    trainLoop X y m.num_iters.toNat m none = .ok (m, none) := by
  have h0 : m.num_iters.toNat = 0 := Int.toNat_of_nonpos h
  constructor
  · rw [train, h0]
    rfl
  · rw [h0]
    rfl

/-- Witness for C10 at a concrete model with a zero iteration budget. -/
theorem C10_witness :
    train w0M wX wy = .error .unboundLocal ∧
    trainLoop wX wy w0M.num_iters.toNat w0M none = .ok (w0M, none) :=
  C10_nonpositive_iters_unbound w0M wX wy (by decide)

/-! ## Claim C5: sign of the cost -/

/-- C5 counterexample: at the perfect prediction `p = y = [1]` the computed
cost is `-log(1 + eps)`, which is strictly negative, so the cost is not
non-negative on label/prediction pairs with entries in {0,1} and [0,1]. -/
theorem C5_counterexample : computeCost wX wX < 0 := by
  have h : computeCost wX wX = -Real.log (1 + epsc) := by
    rw [computeCost_eq wX wX rfl]
    have hc : wX.cols = 1 := rfl
    rw [hc, Finset.sum_range_one]
    have he : wX.entry 0 0 = 1 := rfl
    rw [he]
    norm_num
  rw [h]
  have hp : 0 < Real.log (1 + epsc) := Real.log_pos (by rw [epsc]; norm_num)
  linarith

/-- C5 (amended): for labels in {0,1} and predictions in [0,1] the cost is
bounded below by `-log(1 + eps)` — which lies within `eps` of 0 — rather
than by 0, and it attains exactly `-log(1 + eps)` at a perfect prediction
`p = y`; so non-negativity holds only modulo the `eps` term. -/
theorem C5_amended_cost_lower_bound (y p : Mat)
    (hy : y.rows = 1) (hp : p.rows = 1) (hc : p.cols = y.cols) (hm : 1 ≤ y.cols)
    (hv : ∀ j < y.cols, (y.entry 0 j = 0 ∨ y.entry 0 j = 1)
          ∧ 0 ≤ p.entry 0 j ∧ p.entry 0 j ≤ 1) :
    -Real.log (1 + epsc) ≤ computeCost y p
    ∧ Real.log (1 + epsc) < epsc
    ∧ ((∀ j < y.cols, p.entry 0 j = y.entry 0 j)
        → computeCost y p = -Real.log (1 + epsc)) := by
  have heps : (0:ℝ) < epsc := by rw [epsc]; norm_num
  have hlog : Real.log (1 + epsc) < epsc := by
    have h := Real.log_lt_sub_one_of_pos (x := 1 + epsc) (by linarith) (by linarith)
    linarith
  have hterm : ∀ j ∈ Finset.range y.cols,
      y.entry 0 j * Real.log (p.entry 0 j + epsc)
        + (1 - y.entry 0 j) * Real.log (1 - p.entry 0 j + epsc)
      ≤ Real.log (1 + epsc) := by
    intro j hj
    obtain ⟨hy01, hp0, hp1⟩ := hv j (Finset.mem_range.mp hj)
    rcases hy01 with h0 | h1
    · rw [h0]
      have hb : Real.log (1 - p.entry 0 j + epsc) ≤ Real.log (1 + epsc) :=
        Real.log_le_log (by linarith) (by linarith)
      linarith
    · rw [h1]
      have hb : Real.log (p.entry 0 j + epsc) ≤ Real.log (1 + epsc) :=
        Real.log_le_log (by linarith) (by linarith)
      linarith
  have hmR : (0:ℝ) < (y.cols : ℝ) := by
    have : (1:ℝ) ≤ (y.cols : ℝ) := by exact_mod_cast hm
    linarith
  constructor
  · rw [computeCost_eq y p hp]
    have hsum : ∑ j ∈ Finset.range y.cols,
        (y.entry 0 j * Real.log (p.entry 0 j + epsc)
          + (1 - y.entry 0 j) * Real.log (1 - p.entry 0 j + epsc))
        ≤ (y.cols : ℝ) * Real.log (1 + epsc) := by
      calc ∑ j ∈ Finset.range y.cols,
          (y.entry 0 j * Real.log (p.entry 0 j + epsc)
            + (1 - y.entry 0 j) * Real.log (1 - p.entry 0 j + epsc))
          ≤ ∑ _j ∈ Finset.range y.cols, Real.log (1 + epsc) :=
            Finset.sum_le_sum hterm
        _ = (y.cols : ℝ) * Real.log (1 + epsc) := by
            rw [Finset.sum_const, Finset.card_range, nsmul_eq_mul]
    have h2 : (1 / (y.cols : ℝ)) * ∑ j ∈ Finset.range y.cols,
        (y.entry 0 j * Real.log (p.entry 0 j + epsc)
          + (1 - y.entry 0 j) * Real.log (1 - p.entry 0 j + epsc))
        ≤ (1 / (y.cols : ℝ)) * ((y.cols : ℝ) * Real.log (1 + epsc)) :=
      mul_le_mul_of_nonneg_left hsum (by positivity)
    have h3 : (1 / (y.cols : ℝ)) * ((y.cols : ℝ) * Real.log (1 + epsc))
        = Real.log (1 + epsc) := by
      field_simp
    rw [h3] at h2
    linarith
  constructor
  · exact hlog
  · intro hpe
    rw [computeCost_eq y p hp]
    have hsum : ∑ j ∈ Finset.range y.cols,
        (y.entry 0 j * Real.log (p.entry 0 j + epsc)
          + (1 - y.entry 0 j) * Real.log (1 - p.entry 0 j + epsc))
        = (y.cols : ℝ) * Real.log (1 + epsc) := by
      have hconst : ∀ j ∈ Finset.range y.cols,
          y.entry 0 j * Real.log (p.entry 0 j + epsc)
            + (1 - y.entry 0 j) * Real.log (1 - p.entry 0 j + epsc)
          = Real.log (1 + epsc) := by
        intro j hj
        have hj' := Finset.mem_range.mp hj
        obtain ⟨hy01, -, -⟩ := hv j hj'
        rw [hpe j hj']
        rcases hy01 with h0 | h1
        · rw [h0]; norm_num
        · rw [h1]; norm_num
      rw [Finset.sum_congr rfl hconst, Finset.sum_const, Finset.card_range, nsmul_eq_mul]
    rw [hsum]
    field_simp

/-- Witness for the amended C5 at the concrete pair `p = y = [0]`. -/
theorem C5_witness :
    -Real.log (1 + epsc) ≤ computeCost wy wy
    ∧ Real.log (1 + epsc) < epsc
    ∧ ((∀ j < wy.cols, wy.entry 0 j = wy.entry 0 j)
        → computeCost wy wy = -Real.log (1 + epsc)) :=
  C5_amended_cost_lower_bound wy wy rfl rfl rfl (Nat.le_refl 1)
    (fun _j _hj => ⟨Or.inl rfl, le_refl 0, zero_le_one⟩)

/-! ## Claim C2: the output-layer gradient versus its simplification -/

/-- The saturated pre-activation `zSat` has sigmoid exactly `epsc`. -/
theorem sigmoid_zSat : sigmoid zSat = epsc := by
  rw [zSat, sigmoid, Real.exp_neg, Real.exp_log (by rw [epsc]; norm_num), epsc]
  norm_num

/-- C2 counterexample: at the cached output activation `sigmoid zSat = eps`
(within the open interval (0,1)) with label 1, the code's output-layer dZ
differs from the algebraic simplification `A - y` by more than 2/5 — far
beyond any floating-point tolerance. -/
theorem C2_counterexample :
    outputDZ (sigmoid zSat) zSat 1 - (sigmoid zSat - 1) > 2 / 5 := by
  rw [outputDZ, dsigmoid, sigmoid_zSat, epsc]
  norm_num

/-- C2 (amended): the output-layer dZ computed by `back_propagate` is,
entrywise, `outputDZ` of the cached activation, pre-activation and label;
and on activations `A = sigmoid Z` it equals `(A - y)` plus an
eps-proportional correction `eps·(y(1-A)/(A+eps) - (1-y)A/(1-A+eps))`,
which vanishes only in the limit `eps → 0` and is not negligible for
activations within `eps` of 0 or 1. -/
theorem C2_amended_outputDZ_identity :
    (∀ z yv : ℝ, outputDZ (sigmoid z) z yv
      = (sigmoid z - yv)
        + epsc * (yv * (1 - sigmoid z) / (sigmoid z + epsc)
                  - (1 - yv) * sigmoid z / (1 - sigmoid z + epsc)))
    ∧ ∀ (y A Z : Mat) (i j : ℕ),
        (matHad (matAddM (matNeg (matDiv y (addSc A epsc)))
                         (matDiv (subLeft 1 y) (addSc (subLeft 1 A) epsc)))
                (dsigmoidM Z)).entry i j
          = outputDZ (A.entry i j) (Z.entry i j) (y.entry i j) := by
  constructor
  · intro z yv
    have h1 : 0 < sigmoid z := sigmoid_pos z
    have h2 : sigmoid z < 1 := sigmoid_lt_one z
    have heps : (0:ℝ) < epsc := by rw [epsc]; norm_num
    have h3 : sigmoid z + epsc ≠ 0 := by positivity
    have h4 : 1 - sigmoid z + epsc ≠ 0 := by
      have : 0 < 1 - sigmoid z + epsc := by linarith
      linarith
    rw [outputDZ, dsigmoid]
    field_simp
    ring
  · intro y A Z i j
    rfl

/-! ## Claim C1: the early-stopping check -/

/-- C1 counterexample: with exactly the three recorded costs
`[1.0, 0.5, 0.49]` the growth rate is below 0.25, yet the early-stopping
check of the training loop does not fire, because the code computes the
growth rate only once strictly more than 3 costs are recorded; so training
does not stop at the check performed after the 3rd iteration. -/
theorem C1_counterexample :
    growthRate [1, 1/2, 49/100] < 1/4 ∧ ¬ stopTriggered [1, 1/2, 49/100] := by
  constructor
  · rw [growthRate]
    have h1 : idxFromEnd [1, 1/2, 49/100] 1 = 49/100 := rfl
    have h2 : idxFromEnd [1, 1/2, 49/100] 2 = 1/2 := rfl
    have h3 : idxFromEnd [1, 1/2, 49/100] 3 = 1 := rfl
    rw [h1, h2, h3, epsc]
    norm_num
  · rw [stopTriggered]
    simp

/-- C1 (amended): the early-stopping rule fires only once strictly more
than 3 costs are recorded: a 3-cost history never triggers it; the 4-cost
history `[1.0, 0.5, 0.49, 0.489]` does; and after each iteration the
training loop breaks exactly when `stopTriggered` holds of the post-append
history — i.e. `growth_rate < 0.25` is only consulted from the 4th
recorded cost onwards. -/
theorem C1_amended_stop_rule :
    (∀ a b c : ℝ, ¬ stopTriggered [a, b, c])
    ∧ stopTriggered [1, 1/2, 49/100, 489/1000]
    ∧ ∀ (X y : Mat) (n : ℕ) (m : ModelState) (last : Option ℝ)
        (m2 : ModelState) (c : ℝ),
        trainStep m X y = .ok (m2, c) →
        trainLoop X y (n + 1) m last
          = if stopTriggered m2.J_hist then .ok (m2, some c)
            else trainLoop X y n m2 (some c) := by
  refine ⟨?_, ?_, ?_⟩
  · intro a b c
    rw [stopTriggered]
    simp
  · constructor
    · simp
    · rw [growthRate]
      have h1 : idxFromEnd [1, 1/2, 49/100, 489/1000] 1 = 489/1000 := rfl
      have h2 : idxFromEnd [1, 1/2, 49/100, 489/1000] 2 = 49/100 := rfl
      have h3 : idxFromEnd [1, 1/2, 49/100, 489/1000] 3 = 1/2 := rfl
      rw [h1, h2, h3, epsc]
      norm_num
  · intro X y n m last m2 c h
    simp only [trainLoop, h, stopTriggered]
    by_cases h3 : 3 < m2.J_hist.length
    · by_cases hg : growthRate m2.J_hist < 1/4
      · rw [if_pos h3, if_pos hg, if_pos ⟨h3, hg⟩]
      · rw [if_pos h3, if_neg hg, if_neg (fun hst => hg hst.2)]
    · rw [if_neg h3, if_neg (fun hst => h3 hst.1)]

/-- Witness for the amended C1: a concrete first iteration of the loop,
and a concrete 3-cost history that does not trigger the stop. -/
theorem C1_witness :
    (trainLoop wX wy 1 wM none
      = if stopTriggered wM2.J_hist then .ok (wM2, some wCost)
        else trainLoop wX wy 0 wM2 (some wCost))
    ∧ ¬ stopTriggered [1, 1/2, 49/100] :=
  ⟨C1_amended_stop_rule.2.2 wX wy 0 wM none wM2 wCost rfl,
   C1_amended_stop_rule.1 1 (1/2) (49/100)⟩

/-! ## Claim C3: the forward pass -/

/-- The concrete model's parameters realise its layer specification. -/
theorem wM_paramsMatch : paramsMatch wM.layers wM.params := by
  refine ⟨rfl, ?_⟩
  intro k hk
  have h1 : wM.params.length = 1 := rfl
  rw [h1] at hk
  interval_cases k
  exact ⟨rfl, rfl, rfl, rfl⟩

/-- C3: for parameters matching a layer specification ending in 1 and an
input with the specified feature count, `feed_forward` returns the sigmoid
of the last pre-activation of the relu/affine recurrence, of shape
1 × sample-count, with every returned entry strictly between 0 and 1. -/
theorem C3_feed_forward_output (m : ModelState) (X : Mat) (m2 : ModelState) (A : Mat)
    (hpm : paramsMatch m.layers m.params) (hL : 2 ≤ m.layers.length)
    (hlast : m.layers.getLast? = some 1)
    (hX : X.rows = m.layers.getD 0 0)
    (hff : feed_forward m X = .ok (m2, A)) :
    A.rows = 1 ∧ A.cols = X.cols
    ∧ (∀ j < A.cols, 0 < A.entry 0 j ∧ A.entry 0 j < 1)
    ∧ A = sigmoidM (Zat m.params X m.params.length) := by
  obtain ⟨-, hA⟩ := ff_cache_eq m X m2 A hff
  have hne := ff_ok_ne m X (m2, A) hff
  have hpos : 1 ≤ m.params.length := List.length_pos.mpr hne
  obtain ⟨L1, hL1⟩ : ∃ L1, m.params.length = L1 + 1 := ⟨m.params.length - 1, by omega⟩
  have hrows : A.rows = 1 := by
    rw [hA]
    show (Zat m.params X m.params.length).rows = 1
    rw [hL1, Zat_rows]
    have h1 := (hpm.2 L1 (by omega)).1
    rw [h1]
    have h2 : L1 + 1 = m.layers.length - 1 := by
      have := hpm.1
      omega
    rw [h2, List.getLast?_eq_getElem?] at *
    rw [List.getD_eq_getElem?_getD, hlast]
    rfl
  refine ⟨hrows, ?_, ?_, hA⟩
  · rw [hA]
    show (Zat m.params X m.params.length).cols = X.cols
    rw [hL1]
    exact Zat_cols m.params X L1
  · intro j hj
    rw [hA]
    exact ⟨sigmoid_pos _, sigmoid_lt_one _⟩

/-- Witness for C3 at the concrete one-layer model and one-sample input. -/
theorem C3_witness :
    wP.rows = 1 ∧ wP.cols = wX.cols
    ∧ (∀ j < wP.cols, 0 < wP.entry 0 j ∧ wP.entry 0 j < 1)
    ∧ wP = sigmoidM (Zat wM.params wX wM.params.length) :=
  C3_feed_forward_output wM wX wM1 wP wM_paramsMatch (Nat.le_refl 2) rfl rfl rfl

/-! ## Claim C7: the cache lifecycle -/

/-- C7 counterexample: calling `feed_forward` on a model whose cache is
non-empty (as after any earlier pass) leaves the stale record 0 in place:
the cache's record 0 after the call differs from the input of that call. -/
theorem C7_counterexample :
    (cacheHeadA (feed_forward cxM cxX2)).entry 0 0 ≠ cxX2.entry 0 0 := by
  have h : (cacheHeadA (feed_forward cxM cxX2)).entry 0 0 = 0 := rfl
  have h2 : cxX2.entry 0 0 = 1 := rfl
  rw [h, h2]
  norm_num

/-- C7 (amended): after any successful `feed_forward m X`, the cache holds
exactly one record per layer (`L + 1` records); records 1..L hold this
call's (activation, pre-activation) pairs; but record 0 holds the `X` of
this call only when the cache was empty at call time — otherwise it keeps
the record 0 already present (the input of the first pass since the cache
was last cleared). -/
theorem C7_amended_cache_lifecycle (m : ModelState) (X : Mat) (m2 : ModelState) (A : Mat)
    (hff : feed_forward m X = .ok (m2, A)) :
    m2.cache.length = m.params.length + 1
    ∧ (m.cache = [] → m2.cache.getD 0 dRec = ⟨X, none⟩)
    ∧ (m.cache ≠ [] → m2.cache.getD 0 dRec = m.cache.getD 0 dRec)
    ∧ (∀ k, 1 ≤ k → k < m.params.length →
        m2.cache.getD k dRec = ⟨reluM (Zat m.params X k), some (Zat m.params X k)⟩)
    ∧ m2.cache.getD m.params.length dRec
        = ⟨sigmoidM (Zat m.params X m.params.length),
           some (Zat m.params X m.params.length)⟩ := by
  have hne := ff_ok_ne m X (m2, A) hff
  have hpos : 1 ≤ m.params.length := List.length_pos.mpr hne
  refine ⟨ff_cache_len m X m2 A hff, ?_, ?_, ?_, ?_⟩
  · intro hc
    rw [ff_cache_head m X m2 A hff, if_pos (by rw [hc]; rfl)]
  · intro hc
    rw [ff_cache_head m X m2 A hff, if_neg (by simp [hc])]
  · intro k hk1 hkL
    rw [ff_cache_get m X m2 A hff k hk1 (by omega), if_neg (by omega)]
  · rw [ff_cache_get m X m2 A hff m.params.length hpos le_rfl, if_pos rfl]

/-- Witness for the amended C7 at the concrete model's first forward pass. -/
theorem C7_witness :
    wM1.cache.length = wM.params.length + 1
    ∧ (wM.cache = [] → wM1.cache.getD 0 dRec = ⟨wX, none⟩)
    ∧ (wM.cache ≠ [] → wM1.cache.getD 0 dRec = wM.cache.getD 0 dRec)
    ∧ (∀ k, 1 ≤ k → k < wM.params.length →
        wM1.cache.getD k dRec = ⟨reluM (Zat wM.params wX k), some (Zat wM.params wX k)⟩)
    ∧ wM1.cache.getD wM.params.length dRec
        = ⟨sigmoidM (Zat wM.params wX wM.params.length),
           some (Zat wM.params wX wM.params.length)⟩ :=
  C7_amended_cache_lifecycle wM wX wM1 wP rfl

/-! ## Claim C9: the training iteration and final cache flush -/

/-- C9: every training iteration performs forward pass, cost, backward
pass, then the vanilla in-place update `W ← W - lr·dW`, `b ← b - lr·db`
for every layer, and appends exactly one cost to the history; and whatever
`train` returns has its activation cache cleared. -/
theorem C9_training_iteration (m : ModelState) (X y : Mat)
    (m1 : ModelState) (P : Mat) (m2 : ModelState) (c : ℝ) (r : ModelState × ℝ)
    (hff : feed_forward m X = .ok (m1, P))
    (hstep : trainStep m X y = .ok (m2, c))
    (htr : train m X y = .ok r) :
    c = computeCost y P
    ∧ m2.J_hist = m.J_hist ++ [c]
    ∧ m2.params = updateParams m1 (back_propagate m1 X y)
    ∧ (∀ k < m.layers.length - 1,
        (m2.params.getD k dLayer).W
          = matSub ((m.params.getD k dLayer).W)
              (smulM m.learning_rate ((back_propagate m1 X y).getD k dGrad).1)
        ∧ (m2.params.getD k dLayer).b
          = matSub ((m.params.getD k dLayer).b)
              (smulM m.learning_rate ((back_propagate m1 X y).getD k dGrad).2))
    ∧ r.1.cache = [] := by
  have hs := tstep_spec m X y m1 P hff
  rw [hstep] at hs
  simp only [Except.ok.injEq, Prod.mk.injEq] at hs
  obtain ⟨hm2, hcost⟩ := hs
  obtain ⟨hlr, -, hlay, hpar, -, hJ⟩ := ff_state_eq m X m1 P hff
  refine ⟨hcost, ?_, ?_, ?_, train_cache m X y r htr⟩
  · rw [hm2, hcost]
    show m1.J_hist ++ [computeCost y P] = m.J_hist ++ [computeCost y P]
    rw [hJ]
  · rw [hm2]
  · intro k hk
    rw [hm2]
    show ((updateParams m1 (back_propagate m1 X y)).getD k dLayer).W = _
      ∧ ((updateParams m1 (back_propagate m1 X y)).getD k dLayer).b = _
    rw [updateParams, getD_map_range _ _ _ _ (by rw [hlay]; omega)]
    rw [hpar, hlr]
    exact ⟨rfl, rfl⟩

/-- Witness for C9 at the concrete model's single training iteration. -/
theorem C9_witness :
    wCost = computeCost wy wP
    ∧ wM2.J_hist = wM.J_hist ++ [wCost]
    ∧ wM2.params = updateParams wM1 (back_propagate wM1 wX wy)
    ∧ (∀ k < wM.layers.length - 1,
        (wM2.params.getD k dLayer).W
          = matSub ((wM.params.getD k dLayer).W)
              (smulM wM.learning_rate ((back_propagate wM1 wX wy).getD k dGrad).1)
        ∧ (wM2.params.getD k dLayer).b
          = matSub ((wM.params.getD k dLayer).b)
              (smulM wM.learning_rate ((back_propagate wM1 wX wy).getD k dGrad).2))
    ∧ (wTrain, wCost).1.cache = [] :=
  C9_training_iteration wM wX wy wM1 wP wM2 wCost (wTrain, wCost) rfl rfl rfl

/-! ## Claim C8: parameter and gradient shapes -/

/-- Unfolding of one step of the backward hidden-layer loop. -/
theorem backHidden_succ (mS : ModelState) (mc k : ℕ) (daPrev : Mat) :
    backHidden mS mc (k + 1) daPrev
      = backHidden mS mc k
          (matMul (matT (mS.params.getD k dLayer).W)
            (matHad daPrev (dreluM ((mS.cache.getD (k + 1) dRec).Z.getD dMat))))
        ++ [(smulM (1 / (mc : ℝ))
              (matMul (matHad daPrev (dreluM ((mS.cache.getD (k + 1) dRec).Z.getD dMat)))
                (matT ((mS.cache.getD k dRec).A))),
            smulM (1 / (mc : ℝ))
              (rowSum (matHad daPrev (dreluM ((mS.cache.getD (k + 1) dRec).Z.getD dMat)))))] :=
  rfl

/-- Shapes produced by the backward hidden-layer loop: starting from a
back-propagated `da_prev` with the layer's row count, the loop emits one
gradient pair per layer with exactly the parameter shapes. -/
theorem backHidden_shapes (mS : ModelState) (mc : ℕ) (lay : List ℕ) (K : ℕ)
    (hcA : ∀ k < K, (mS.cache.getD k dRec).A.rows = lay.getD k 0)
    (hW : ∀ k < K, (mS.params.getD k dLayer).W.cols = lay.getD k 0) :
    ∀ k, k ≤ K → ∀ daPrev : Mat, daPrev.rows = lay.getD k 0 →
      (backHidden mS mc k daPrev).length = k
      ∧ ∀ j < k,
          ((backHidden mS mc k daPrev).getD j dGrad).1.rows = lay.getD (j + 1) 0
          ∧ ((backHidden mS mc k daPrev).getD j dGrad).1.cols = lay.getD j 0
          ∧ ((backHidden mS mc k daPrev).getD j dGrad).2.rows = lay.getD (j + 1) 0
          ∧ ((backHidden mS mc k daPrev).getD j dGrad).2.cols = 1 := by
  intro k
  induction k with
  | zero =>
    intro hk daPrev hda
    exact ⟨rfl, fun j hj => absurd hj (by omega)⟩
  | succ k ih =>
    intro hk daPrev hda
    have hda' : (matMul (matT (mS.params.getD k dLayer).W)
        (matHad daPrev (dreluM ((mS.cache.getD (k + 1) dRec).Z.getD dMat)))).rows
        = lay.getD k 0 := hW k (by omega)
    obtain ⟨hlen, hj⟩ := ih (by omega) _ hda'
    rw [backHidden_succ]
    refine ⟨?_, ?_⟩
    · rw [List.length_append, hlen]
      rfl
    · intro j hjk
      by_cases hcase : j < k
      · rw [getD_append_leftL _ _ j dGrad (by rw [hlen]; omega)]
        exact hj j hcase
      · have hjeq : j = k := by omega
        subst hjeq
        rw [getD_append_rightL _ _ j dGrad (le_of_eq hlen)]
        have h0 : j - (backHidden mS mc j
            (matMul (matT (mS.params.getD j dLayer).W)
              (matHad daPrev (dreluM ((mS.cache.getD (j + 1) dRec).Z.getD dMat))))).length
            = 0 := by rw [hlen]; omega
        rw [h0, List.getD_cons_zero]
        exact ⟨hda, hcA j (by omega), hda, rfl⟩

/-- `initialize_parameters` produces one weight/bias pair per non-input
layer, with the specified shapes and all-zero biases. -/
theorem initParameters_shapes (ls : List ℕ) (randn : ℕ → ℕ → ℕ → ℝ) :
    paramsMatch ls (initParameters ls randn)
    ∧ ∀ k i j, ((initParameters ls randn).getD k dLayer).b.entry i j = 0 := by
  constructor
  · constructor
    · simp [initParameters]
    · intro k hk
      have hk' : k < ls.length - 1 := by simpa [initParameters] using hk
      rw [initParameters, getD_map_range _ _ _ _ hk']
      exact ⟨rfl, rfl, rfl, rfl⟩
  · intro k i j
    by_cases hk : k < ls.length - 1
    · rw [initParameters, getD_map_range _ _ _ _ hk]
    · rw [initParameters, List.getD_eq_default _ _ (by simp; omega)]
      rfl

/-- Decomposition of `back_propagate` into its output-layer gradient pair
and the hidden-layer loop, abstracting the output dZ term (whose shape is
that of the label matrix). -/
theorem bp_decomp (mS : ModelState) (X y : Mat) :
    ∃ dZ : Mat,
      dZ.rows = y.rows ∧ dZ.cols = y.cols ∧
      back_propagate mS X y
        = backHidden mS y.cols (mS.params.length - 1)
            (matMul (matT (mS.params.getD (mS.params.length - 1) dLayer).W) dZ)
          ++ [(smulM (1 / (y.cols : ℝ))
                (matMul dZ (matT (mS.cache.getD (mS.cache.length - 2) dRec).A)),
               smulM (1 / (y.cols : ℝ)) (rowSum dZ))] :=
  ⟨matHad
      (matAddM (matNeg (matDiv y (addSc (mS.cache.getD (mS.cache.length - 1) dRec).A epsc)))
        (matDiv (subLeft 1 y) (addSc (subLeft 1 (mS.cache.getD (mS.cache.length - 1) dRec).A) epsc)))
      (dsigmoidM ((mS.cache.getD (mS.cache.length - 1) dRec).Z.getD dMat)),
    rfl, rfl, rfl⟩

/-- C8: `initialize_parameters` produces exactly `L_spec - 1` pairs with
weight shape `(layers[i], layers[i-1])`, bias shape `(layers[i], 1)` and
all-zero biases; the gradients computed in an iteration have exactly the
parameters' shapes (so the update is elementwise); and the parameter
update of a training iteration preserves the parameter shapes. -/
theorem C8_shape_invariants (m : ModelState) (X y : Mat) (m1 : ModelState) (P : Mat)
    (hpm : paramsMatch m.layers m.params) (hL : 2 ≤ m.layers.length)
    (hlast : m.layers.getLast? = some 1)
    (hX : X.rows = m.layers.getD 0 0)
    (hyr : y.rows = 1) (hyc : y.cols = X.cols)
    (hcache : m.cache ≠ [] → (m.cache.getD 0 dRec).A = X)
    (hff : feed_forward m X = .ok (m1, P)) :
    (∀ (ls : List ℕ) (randn : ℕ → ℕ → ℕ → ℝ),
        paramsMatch ls (initParameters ls randn)
        ∧ ∀ k i j, ((initParameters ls randn).getD k dLayer).b.entry i j = 0)
    ∧ gradsMatch m.params (back_propagate m1 X y)
    ∧ (∀ m2 c, trainStep m X y = .ok (m2, c) → paramsMatch m.layers m2.params) := by
  obtain ⟨hlr, -, hlay, hpar, -, -⟩ := ff_state_eq m X m1 P hff
  have hne := ff_ok_ne m X (m1, P) hff
  have hpos : 1 ≤ m.params.length := List.length_pos.mpr hne
  have hLL : m.params.length = m.layers.length - 1 := hpm.1
  have hclen := ff_cache_len m X m1 P hff
  have hA0 : (m1.cache.getD 0 dRec).A = X := by
    rw [ff_cache_head m X m1 P hff]
    by_cases hc : m.cache = []
    · rw [if_pos (by rw [hc]; rfl)]
    · rw [if_neg (by simp [hc])]
      exact hcache hc
  have hone : m.layers.getD (m.layers.length - 1) 0 = 1 := by
    rw [List.getLast?_eq_getElem?] at hlast
    rw [List.getD_eq_getElem?_getD, hlast]
    rfl
  have hcArows : ∀ k < m.params.length,
      (m1.cache.getD k dRec).A.rows = m.layers.getD k 0 := by
    intro k hk
    cases k with
    | zero => rw [hA0, hX]
    | succ k0 =>
      rw [ff_cache_get m X m1 P hff (k0 + 1) (by omega) (by omega), if_neg (by omega)]
      show (Zat m.params X (k0 + 1)).rows = _
      rw [Zat_rows]
      exact (hpm.2 k0 (by omega)).1
  refine ⟨fun ls randn => initParameters_shapes ls randn, ?_, ?_⟩
  · -- gradient shapes
    obtain ⟨dZ, hdr, hdc, hbp⟩ := bp_decomp m1 X y
    rw [hpar] at hbp
    have hdaTop : (matMul (matT (m.params.getD (m.params.length - 1) dLayer).W) dZ).rows
        = m.layers.getD (m.params.length - 1) 0 :=
      (hpm.2 (m.params.length - 1) (by omega)).2.1
    obtain ⟨hbhlen, hbhj⟩ := backHidden_shapes m1 y.cols m.layers (m.params.length - 1)
      (fun k hk => hcArows k (by omega))
      (fun k hk => by rw [hpar]; exact (hpm.2 k (by omega)).2.1)
      (m.params.length - 1) le_rfl
      (matMul (matT (m.params.getD (m.params.length - 1) dLayer).W) dZ) hdaTop
    rw [gradsMatch, hbp]
    constructor
    · rw [List.length_append, hbhlen, List.length_singleton]
      omega
    · intro k hk
      by_cases hcase : k < m.params.length - 1
      · rw [getD_append_leftL _ _ k dGrad (by rw [hbhlen]; omega)]
        obtain ⟨h1, h2, h3, h4⟩ := hbhj k hcase
        refine ⟨?_, ?_, ?_, ?_⟩
        · rw [(hpm.2 k hk).1]; exact h1
        · rw [(hpm.2 k hk).2.1]; exact h2
        · rw [(hpm.2 k hk).2.2.1]; exact h3
        · rw [(hpm.2 k hk).2.2.2]; exact h4
      · have hkeq : k = m.params.length - 1 := by omega
        have hk1 : k + 1 = m.layers.length - 1 := by omega
        have hc2 : m1.cache.length - 2 = k := by omega
        rw [getD_append_rightL _ _ k dGrad (by rw [hbhlen]; omega)]
        have h0 : k - (backHidden m1 y.cols (m.params.length - 1)
            (matMul (matT (m.params.getD (m.params.length - 1) dLayer).W) dZ)).length
            = 0 := by rw [hbhlen]; omega
        rw [h0]
        refine ⟨?_, ?_, ?_, ?_⟩
        · show dZ.rows = (m.params.getD k dLayer).W.rows
          rw [hdr, hyr, (hpm.2 k hk).1, hk1, hone]
        · show (m1.cache.getD (m1.cache.length - 2) dRec).A.rows
            = (m.params.getD k dLayer).W.cols
          rw [hc2, hcArows k hk, (hpm.2 k hk).2.1]
        · show dZ.rows = (m.params.getD k dLayer).b.rows
          rw [hdr, hyr, (hpm.2 k hk).2.2.1, hk1, hone]
        · show (1 : ℕ) = (m.params.getD k dLayer).b.cols
          rw [(hpm.2 k hk).2.2.2]
  · -- update preserves shapes
    intro m2 c hstep
    have hs := tstep_spec m X y m1 P hff
    rw [hstep] at hs
    simp only [Except.ok.injEq, Prod.mk.injEq] at hs
    obtain ⟨hm2, -⟩ := hs
    rw [hm2]
    show paramsMatch m.layers (updateParams m1 (back_propagate m1 X y))
    have hulen : (updateParams m1 (back_propagate m1 X y)).length
        = m.layers.length - 1 := by
      rw [updateParams, List.length_map, List.length_range, hlay]
    refine ⟨hulen, ?_⟩
    intro k hk
    have hk2 : k < m1.layers.length - 1 := by rw [hlay]; omega
    have hk3 : k < m.params.length := by omega
    rw [updateParams, getD_map_range _ _ _ _ hk2]
    refine ⟨?_, ?_, ?_, ?_⟩
    · show (m1.params.getD k dLayer).W.rows = _
      rw [hpar]; exact (hpm.2 k hk3).1
    · show (m1.params.getD k dLayer).W.cols = _
      rw [hpar]; exact (hpm.2 k hk3).2.1
    · show (m1.params.getD k dLayer).b.rows = _
      rw [hpar]; exact (hpm.2 k hk3).2.2.1
    · show (m1.params.getD k dLayer).b.cols = _
      rw [hpar]; exact (hpm.2 k hk3).2.2.2

/-- Witness for C8 at the concrete model's first training iteration. -/
theorem C8_witness :
    (∀ (ls : List ℕ) (randn : ℕ → ℕ → ℕ → ℝ),
        paramsMatch ls (initParameters ls randn)
        ∧ ∀ k i j, ((initParameters ls randn).getD k dLayer).b.entry i j = 0)
    ∧ gradsMatch wM.params (back_propagate wM1 wX wy)
    ∧ (∀ m2 c, trainStep wM wX wy = .ok (m2, c) → paramsMatch wM.layers m2.params) :=
  C8_shape_invariants wM wX wy wM1 wP wM_paramsMatch (Nat.le_refl 2) rfl rfl rfl rfl
    (fun h => absurd rfl h) rfl
